import Mathlib

/-!
Verification of the loop-attribution and cross-tool correlation code of the
BuboExperiments repository.  Each definition below is a shallow embedding of a
Python function from the repository (the source file and function are named in
its doc comment); theorems check the specification's claims against these
embeddings.  Numeric values carried as Python `int` are modelled by `ℕ`/`ℤ`,
Python `float` values by `ℚ` (all claims only exercise exact arithmetic).
Python dicts are modelled as association lists; where a claim needs the
dict property that keys are unique, the theorem hypothesises `Nodup`.
-/

/-! ## Marker codec (src/parse_async_jfr_to_csv.py) -/

/-- Classification of one stack-frame name, as performed by the regexes at the
top of `src/parse_async_jfr_to_csv.py`: a frame matching
`BuboAgentCompilerMarkers.MarkerDelimiter` is `delim` (this regex is tested
first), otherwise a frame matching `BuboAgentCompilerMarkers.Marker(\d+)` is
`marker d` with `d` the decimal number captured by the group, and any other
frame is `other`. -/
inductive Frame where
  | marker (d : ℕ)
  | delim
  | other
deriving DecidableEq, Repr

/-- The scanning loop of `decode_comp_loop_from_stack`
(src/parse_async_jfr_to_csv.py lines 38-55): walk the frames top-of-stack
first; a delimiter frame sets `seen_delim` and is skipped; a marker digit is
appended to `pre_digits` before the delimiter and to `post_digits` after it; a
non-marker frame is skipped until the first digit is seen, and stops the scan
(`break`) once `seen_delim` is set or `pre_digits` is non-empty.  Returns the
accumulated `(pre_digits, post_digits)`. -/
def markerScan : List Frame → Bool → List ℕ → List ℕ → List ℕ × List ℕ
  | [], _, pre, post => (pre, post)
  | Frame.delim :: rest, _, pre, post => markerScan rest true pre post
  | Frame.marker d :: rest, seen, pre, post =>
      if seen then markerScan rest seen pre (post ++ [d])
      else markerScan rest seen (pre ++ [d]) post
  | Frame.other :: rest, seen, pre, post =>
      if seen = true ∨ pre ≠ [] then (pre, post) else markerScan rest seen pre post

/-- `int("".join(str(d) for d in ds))`: concatenate the decimal
representations of the collected digits and read the result back as a decimal
number (src/parse_async_jfr_to_csv.py lines 60-61). -/
def digitsConcatToNat (ds : List ℕ) : ℕ :=
  ((ds.map (fun d => Nat.toDigits 10 d)).flatten).foldl (fun a c => a * 10 + (c.toNat - 48)) 0

/-- `decode_comp_loop_from_stack` (src/parse_async_jfr_to_csv.py lines 25-63):
run the marker scan with `seen_delim = False` and empty digit lists; if either
digit group is empty return `None`, otherwise return
`(comp_id, loop_id)` where `loop_id` is read from `pre_digits` and `comp_id`
from `post_digits`, each concatenated in encounter order. -/
def decode_comp_loop_from_stack (frames : List Frame) : Option (ℕ × ℕ) :=
  let s := markerScan frames false [] []
  if s.1 = [] ∨ s.2 = [] then none
  else some (digitsConcatToNat s.2, digitsConcatToNat s.1)

/-- The aggregation loop of `parse_async_tree`
(src/parse_async_jfr_to_csv.py lines 93-122), restricted to the decoded data
it consumes: each block contributes its sample count to
`loop_samples[key]` when its frames decode to `some key`, and contributes
nothing (silently) when they decode to `none`.  The `defaultdict(int)` is
modelled as a total function defaulting to `0`. -/
def accumulate_loop_samples (blocks : List (List Frame × ℕ)) : ℕ × ℕ → ℕ :=
  blocks.foldl
    (fun acc b =>
      match decode_comp_loop_from_stack b.1 with
      | some key => fun q => if q = key then acc q + b.2 else acc q
      | none => acc)
    (fun _ => 0)

/-! ## Percent change (src/LoopProfiling/CustomMadeLoopTest/Data/VTuneData/median_per_loop.py) -/

/-- `safe_pct_increase` (median_per_loop.py lines 177-180): returns `0.0`
when `normal <= 0.0`, otherwise `((slow - normal) / normal) * 100.0`. -/
def safe_pct_increase (normal slow : ℚ) : ℚ :=
  if normal ≤ 0 then 0 else (slow - normal) / normal * 100

/-! ## Lemmas about the marker scan -/

theorem markerScan_markers_post (posts : List ℕ) (pre post : List ℕ) :
    markerScan (posts.map Frame.marker) true pre post = (pre, post ++ posts) := by
  induction posts generalizing post with
  | nil => simp [markerScan]
  | cons d rest ih =>
      simp only [List.map_cons, markerScan, if_pos rfl, ih]
      simp

theorem markerScan_markers_pre (pres posts : List ℕ) (pre : List ℕ) :
    markerScan (pres.map Frame.marker ++ Frame.delim :: posts.map Frame.marker) false pre []
      = (pre ++ pres, posts) := by
  induction pres generalizing pre with
  | nil =>
      simp only [List.map_nil, List.nil_append, markerScan, markerScan_markers_post]
      simp
  | cons d rest ih =>
      simp only [List.map_cons, List.cons_append, markerScan, Bool.false_eq_true, if_false,
        List.append_eq]
      rw [ih (pre ++ [d])]
      simp

theorem markerScan_no_delim_post (frames : List Frame) (pre post : List ℕ)
    (h : Frame.delim ∉ frames) :
    (markerScan frames false pre post).2 = post := by
  induction frames generalizing pre with
  | nil => simp [markerScan]
  | cons f rest ih =>
      match f with
      | Frame.delim => exact absurd (List.mem_cons_self _ _) h
      | Frame.marker d =>
          simp only [markerScan, Bool.false_eq_true, if_false]
          exact ih _ (fun hm => h (List.mem_cons_of_mem _ hm))
      | Frame.other =>
          simp only [markerScan]
          rcases em (pre = []) with hp | hp
          · rw [if_neg (by simp [hp])]
            exact ih _ (fun hm => h (List.mem_cons_of_mem _ hm))
          · rw [if_pos (Or.inr hp)]

/-! ## Claim theorems: C1, C2, C7 -/

/-- C1 counterexample: the spec's worked example
`[Marker3, Marker2, MarkerDelimiter, Marker1, Marker4]` decodes under
`decode_comp_loop_from_stack` to `comp_id = 14` (post-delimiter digits read in
encounter order, not reversed) and `loop_id = 32`, not to the claimed
`comp_id = 41`. -/
theorem C1_counterexample :
    decode_comp_loop_from_stack
        [Frame.marker 3, Frame.marker 2, Frame.delim, Frame.marker 1, Frame.marker 4]
      = some (14, 32) ∧
    decode_comp_loop_from_stack
        [Frame.marker 3, Frame.marker 2, Frame.delim, Frame.marker 1, Frame.marker 4]
      ≠ some (41, 32) := by
  constructor
  · decide
  · decide

/-- C1 (amended): for every stack made of marker frames around a delimiter
frame, with both digit groups non-empty, the decoder returns
`(comp_id, loop_id)` where `loop_id` is the decimal number formed by the
digits before the delimiter in encounter order and `comp_id` is the decimal
number formed by the digits after the delimiter, also in encounter order
(no reversal). -/
theorem C1_theorem (pres posts : List ℕ) (h1 : pres ≠ []) (h2 : posts ≠ []) :
    decode_comp_loop_from_stack
        (pres.map Frame.marker ++ Frame.delim :: posts.map Frame.marker)
      = some (digitsConcatToNat posts, digitsConcatToNat pres) := by
  unfold decode_comp_loop_from_stack
  rw [markerScan_markers_pre pres posts []]
  simp [h1, h2]

/-- C1 witness: instantiating the amended claim at the spec's worked example
gives `loop_id = 32` and `comp_id = 14`. -/
theorem C1_witness :
    ([3, 2] : List ℕ) ≠ [] ∧ ([1, 4] : List ℕ) ≠ [] ∧
    decode_comp_loop_from_stack
        (([3, 2] : List ℕ).map Frame.marker ++ Frame.delim :: ([1, 4] : List ℕ).map Frame.marker)
      = some (14, 32) :=
  ⟨by decide, by decide,
    (C1_theorem [3, 2] [1, 4] (by decide) (by decide)).trans (by decide)⟩

/-- C2 counterexample: `safe_pct_increase` with a zero baseline returns the
value `0.0` — it does not fail, yield "no result", or drop the row, contrary
to the claim that `percent_change(base=0, new=5)` fails with
`UndefinedPercentChange`. -/
theorem C2_counterexample : safe_pct_increase 0 5 = 0 := by
  norm_num [safe_pct_increase]

/-- C2 (amended): `percent_change` equals `(new - base) / base * 100` when
`base > 0`, and whenever `base <= 0` the code returns `0.0` (the affected row
is coerced to zero and retained, not excluded); in particular
`percent_change(base=100, new=150) = 50`. -/
theorem C2_theorem :
    (∀ base val : ℚ, 0 < base → safe_pct_increase base val = (val - base) / base * 100) ∧
    (∀ base val : ℚ, base ≤ 0 → safe_pct_increase base val = 0) ∧
    safe_pct_increase 100 150 = 50 := by
  refine ⟨?_, ?_, ?_⟩
  · intro base val h
    simp [safe_pct_increase, not_le.mpr h]
  · intro base val h
    simp [safe_pct_increase, h]
  · norm_num [safe_pct_increase]

/-- C2 witness: the positive-baseline clause evaluated at `base = 100`,
`new = 150`. -/
theorem C2_witness :
    0 < (100 : ℚ) ∧ safe_pct_increase 100 150 = (150 - 100) / 100 * 100 :=
  ⟨by norm_num, C2_theorem.1 100 150 (by norm_num)⟩

/-- C7: whenever a stack contains no delimiter frame, or the scan leaves
either digit group empty, `decode_comp_loop_from_stack` returns `none`, and a
block with such a stack contributes nothing to the per-loop sample
aggregation of `parse_async_tree` — no error, no default value. -/
theorem C7_theorem (frames : List Frame) (blocks : List (List Frame × ℕ)) (n : ℕ)
    (h : Frame.delim ∉ frames ∨ (markerScan frames false [] []).1 = []
          ∨ (markerScan frames false [] []).2 = []) :
    decode_comp_loop_from_stack frames = none ∧
      accumulate_loop_samples (blocks ++ [(frames, n)]) = accumulate_loop_samples blocks := by
  have hnone : decode_comp_loop_from_stack frames = none := by
    unfold decode_comp_loop_from_stack
    rcases h with h | h | h
    · have := markerScan_no_delim_post frames [] [] h
      simp [this]
    · simp [h]
    · simp [h]
  refine ⟨hnone, ?_⟩
  unfold accumulate_loop_samples
  rw [List.foldl_append]
  simp [hnone]

/-- C7 witness: a stack with a single marker frame and no delimiter decodes
to `none` and leaves the aggregation untouched. -/
theorem C7_witness :
    Frame.delim ∉ [Frame.marker 3] ∧
      (decode_comp_loop_from_stack [Frame.marker 3] = none ∧
        accumulate_loop_samples [([Frame.marker 3], 5)] = accumulate_loop_samples []) :=
  ⟨by decide, C7_theorem [Frame.marker 3] [] 5 (Or.inl (by decide))⟩

/-! ## Exclusive-cost calculator
(src/LoopProfiling/FourthTest_SimRuns_WithCallCount/bubo_async_compare.py) -/

/-- Full loop key as used by `parse_bubo_file` / `compute_exclusive_cycles`:
`(comp_id, method, loop_id)`. -/
abbrev FKey := ℕ × String × ℕ

/-- Short loop key `(comp_id, loop_id)` used by the `parents`, `key_by_id`
and `children` dicts. -/
abbrev LKey := ℕ × ℕ

/-- Projection of a full key to its `(comp_id, loop_id)` part. -/
def fkLKey (k : FKey) : LKey := (k.1, k.2.2)

/-- Python dict lookup `d.get(k)` for a dict built by inserting the bindings
of `l` left to right: the last binding of a key wins, so we search the
reversed list. -/
def pyFind [DecidableEq α] (l : List (α × β)) (k : α) : Option β :=
  (l.reverse.find? (fun kv => decide (kv.1 = k))).map Prod.snd

/-- Python dict lookup with default, `d.get(k, dflt)`. -/
def pyGetD [DecidableEq α] (l : List (α × β)) (k : α) (dflt : β) : β :=
  (pyFind l k).getD dflt

/-- The `key_by_id` dict of `compute_exclusive_cycles` (bubo_async_compare.py
lines 141-143): maps `(comp_id, loop_id)` to the full `(comp_id, method,
loop_id)` key, built by iterating the keys of `loops` (last binding wins). -/
def key_by_id (loops : List (FKey × ℤ)) (q : LKey) : Option FKey :=
  (loops.reverse.find? (fun kv => decide (fkLKey kv.1 = q))).map (fun kv => kv.1)

/-- The `children` adjacency of `compute_exclusive_cycles`
(bubo_async_compare.py lines 145-149) looked up at `q = (comp_id, loop_id)`:
the loop ids `cid` such that `parents` binds `(comp_id, cid)` to the parent
`loop_id`, in iteration order of `parents`; a `None` parent contributes no
edge. -/
def childIds (parents : List (LKey × Option ℕ)) (q : LKey) : List ℕ :=
  parents.filterMap
    (fun kp => if kp.1.1 = q.1 ∧ kp.2 = some q.2 then some kp.1.2 else none)

/-- `compute_exclusive_cycles` (bubo_async_compare.py lines 132-166): for
every `(comp_id, method, loop_id) -> inclusive` binding of `loops`, sum the
inclusive cycles of its direct children (a child id whose full key is unknown
contributes `loops.get(child_key, 0)`-style zero), subtract from the loop's
own inclusive cycles and clamp a negative result to zero. -/
def compute_exclusive_cycles (loops : List (FKey × ℤ))
    (parents : List (LKey × Option ℕ)) : List (FKey × ℤ) :=
  loops.map (fun kv =>
    let child_sum : ℤ :=
      ((childIds parents (fkLKey kv.1)).map (fun cid =>
        match key_by_id loops (kv.1.1, cid) with
        | some ck => pyGetD loops ck 0
        | none => 0)).sum
    let excl := kv.2 - child_sum
    (kv.1, if excl < 0 then 0 else excl))

/-- The parent recorded for a loop by the `parents` dict (`parents.get`):
`none` when the loop has no binding, `some none` when its encoding said
`parentId = -1` (a root), `some (some p)` when its parent is loop `p`. -/
def parentOf (parents : List (LKey × Option ℕ)) (q : LKey) : Option (Option ℕ) :=
  pyFind parents q

/-- A loop is a root when `parents` either does not bind it or binds it to
`None` (encoding `parentId = -1`). -/
def isRootLoop (parents : List (LKey × Option ℕ)) (q : LKey) : Prop :=
  parentOf parents q = none ∨ parentOf parents q = some none

instance (parents : List (LKey × Option ℕ)) (q : LKey) :
    Decidable (isRootLoop parents q) := by
  unfold isRootLoop; infer_instance

/-- Specification-side sum of the inclusive costs of the direct children of
the loop with full key `k`: the bindings of `loops` in the same compilation
whose recorded parent is `k`'s loop id. -/
def specChildSum (loops : List (FKey × ℤ)) (parents : List (LKey × Option ℕ))
    (k : FKey) : ℤ :=
  ((loops.filter (fun kv =>
      decide (kv.1.1 = k.1 ∧ parentOf parents (fkLKey kv.1) = some (some k.2.2)))).map
    Prod.snd).sum

/-! ## Lemmas about dict lookups -/

theorem pyFind_mem [DecidableEq α] {l : List (α × β)} {k : α} {v : β}
    (h : pyFind l k = some v) : (k, v) ∈ l := by
  unfold pyFind at h
  cases hf : l.reverse.find? (fun kv => decide (kv.1 = k)) with
  | none => rw [hf] at h; simp at h
  | some kv =>
      rw [hf] at h
      have hp := List.find?_some hf
      have hk : kv.1 = k := by simpa using hp
      have hm : kv ∈ l := List.mem_reverse.mp (List.mem_of_find?_eq_some hf)
      have hv : kv.2 = v := by simpa using h
      have : kv = (k, v) := Prod.ext hk hv
      exact this ▸ hm

theorem pyGetD_zero_nonneg {l : List (FKey × ℤ)} (h : ∀ kv ∈ l, 0 ≤ kv.2) (k : FKey) :
    0 ≤ pyGetD l k 0 := by
  unfold pyGetD
  cases hf : pyFind l k with
  | none => simp
  | some v => simpa using h (k, v) (pyFind_mem hf)

/-! ## Claim theorems: C5, C10 -/

/-- C5 counterexample: for the cyclic loop encoding `"0:1,1:0"` (loop 0 and
loop 1 each the other's parent), `compute_exclusive_cycles` neither raises a
`CyclicLoopEncoding` error nor hangs: it silently returns an ordinary result
(each loop's inclusive cycles minus the other's, clamped at zero).  No
`CyclicLoopEncoding` error exists anywhere in the repository. -/
theorem C5_counterexample :
    compute_exclusive_cycles [((7, "m", 0), 10), ((7, "m", 1), 7)]
        [((7, 0), some 1), ((7, 1), some 0)]
      = [((7, "m", 0), 3), ((7, "m", 1), 0)] := by
  decide

/-- C5 (amended): processing a compilation with a self-referential or cyclic
parent chain terminates rather than looping forever, but no distinct error is
reported: `compute_exclusive_cycles` totally computes one exclusive value for
every loop of its input, cyclic encodings included, leaving the key structure
untouched. -/
theorem C5_theorem (loops : List (FKey × ℤ)) (parents : List (LKey × Option ℕ)) :
    (compute_exclusive_cycles loops parents).map Prod.fst = loops.map Prod.fst := by
  simp [compute_exclusive_cycles, List.map_map, Function.comp]

/-- C10: with non-negative inclusive costs and an arbitrary parent map, every
exclusive cost computed by `compute_exclusive_cycles` lies between `0` and
the loop's inclusive cost. -/
theorem C10_theorem (loops : List (FKey × ℤ)) (parents : List (LKey × Option ℕ))
    (h : ∀ kv ∈ loops, 0 ≤ kv.2) :
    ∀ kv ∈ compute_exclusive_cycles loops parents,
      0 ≤ kv.2 ∧ ∃ v, (kv.1, v) ∈ loops ∧ kv.2 ≤ v := by
  intro kv hkv
  unfold compute_exclusive_cycles at hkv
  obtain ⟨kv₀, h₀, rfl⟩ := List.mem_map.mp hkv
  have hcs : 0 ≤ ((childIds parents (fkLKey kv₀.1)).map (fun cid =>
      match key_by_id loops (kv₀.1.1, cid) with
      | some ck => pyGetD loops ck 0
      | none => 0)).sum := by
    apply List.sum_nonneg
    intro x hx
    obtain ⟨cid, _, rfl⟩ := List.mem_map.mp hx
    cases key_by_id loops (kv₀.1.1, cid) with
    | none => simp
    | some ck => simpa using pyGetD_zero_nonneg h ck
  constructor
  · by_cases hlt : kv₀.2 - ((childIds parents (fkLKey kv₀.1)).map (fun cid =>
        match key_by_id loops (kv₀.1.1, cid) with
        | some ck => pyGetD loops ck 0
        | none => 0)).sum < 0
    · simp [hlt]
    · simp only [if_neg hlt]
      exact le_of_not_lt hlt
  · refine ⟨kv₀.2, by simpa using h₀, ?_⟩
    by_cases hlt : kv₀.2 - ((childIds parents (fkLKey kv₀.1)).map (fun cid =>
        match key_by_id loops (kv₀.1.1, cid) with
        | some ck => pyGetD loops ck 0
        | none => 0)).sum < 0
    · simp only [if_pos hlt]
      exact h kv₀ h₀
    · simp only [if_neg hlt]
      exact sub_le_self _ hcs

/-- C10 witness: a two-loop nest with non-negative inclusive costs. -/
theorem C10_witness :
    (∀ kv ∈ ([((3, "m", 0), 40), ((3, "m", 1), 15)] : List (FKey × ℤ)), 0 ≤ kv.2) ∧
    (∀ kv ∈ compute_exclusive_cycles [((3, "m", 0), 40), ((3, "m", 1), 15)]
        [((3, 0), none), ((3, 1), some 0)],
      0 ≤ kv.2 ∧ ∃ v, (kv.1, v) ∈ ([((3, "m", 0), 40), ((3, "m", 1), 15)] : List (FKey × ℤ))
        ∧ kv.2 ≤ v) :=
  ⟨by decide, C10_theorem _ _ (by decide)⟩

/-! ## List-sum helper lemmas for the conservation proofs -/

theorem sumMapAdd (l : List α) (f g : α → ℤ) :
    (l.map (fun x => f x + g x)).sum = (l.map f).sum + (l.map g).sum := by
  induction l with
  | nil => simp
  | cons a t ih => simp [ih]; ring

theorem sumMapSub (l : List α) (f g : α → ℤ) :
    (l.map (fun x => f x - g x)).sum = (l.map f).sum - (l.map g).sum := by
  induction l with
  | nil => simp
  | cons a t ih => simp [ih]; ring

theorem sumMapZero (l : List α) : (l.map (fun _ => (0 : ℤ))).sum = 0 := by
  induction l with
  | nil => simp
  | cons a t ih => simp [ih]

/-- Summing a function over a Boolean filter equals summing the conditional
function over the whole list. -/
theorem sumFilterMap (l : List α) (p : α → Bool) (g : α → ℤ) :
    ((l.filter p).map g).sum = (l.map (fun x => if p x then g x else 0)).sum := by
  induction l with
  | nil => simp
  | cons a t ih =>
      by_cases hp : p a
      · simp [List.filter_cons, hp, ih]
      · simp [List.filter_cons, hp, ih]

/-- Pulling a condition out of a sum: a guarded sum is the sum of the guarded
terms. -/
theorem iteSumPush (A : Prop) [Decidable A] (l : List α) (t : α → ℤ) :
    (if A then (l.map t).sum else 0) = (l.map (fun x => if A then t x else 0)).sum := by
  by_cases hA : A
  · simp [hA]
  · simp [hA, sumMapZero]

/-- Fubini for list sums. -/
theorem sumSumComm (l : List α) (m : List β) (F : α → β → ℤ) :
    (l.map (fun x => (m.map (fun y => F x y)).sum)).sum
      = (m.map (fun y => (l.map (fun x => F x y)).sum)).sum := by
  induction l with
  | nil => simp [sumMapZero]
  | cons a t ih =>
      simp only [List.map_cons, List.sum_cons, ih]
      rw [← sumMapAdd]

/-- Over a list with no duplicates, summing an indicator of equality with a
fixed element yields that element's weight iff it is present. -/
theorem sumIteEqOfNodup [DecidableEq α] (l : List α) (hNd : l.Nodup) (x₀ : α) (w : ℤ) :
    (l.map (fun x => if x = x₀ then w else 0)).sum = if x₀ ∈ l then w else 0 := by
  induction l with
  | nil => simp
  | cons a t ih =>
      rcases List.nodup_cons.mp hNd with ⟨ha, ht⟩
      by_cases hax : a = x₀
      · subst hax
        simp [ih ht, ha]
      · have : (x₀ ∈ a :: t) ↔ (x₀ ∈ t) := by
          constructor
          · intro hm
            rcases List.mem_cons.mp hm with hm | hm
            · exact absurd hm.symm hax
            · exact hm
          · exact fun hm => List.mem_cons_of_mem _ hm
        simp [hax, ih ht, this]

/-- Over a list whose image under `f` has no duplicates, summing an indicator
of `f x = q` yields `w` iff some element maps to `q`. -/
theorem sumIteProjOfNodup [DecidableEq κ] (l : List α) (f : α → κ)
    (hNd : (l.map f).Nodup) (q : κ) (w : ℤ) :
    (l.map (fun x => if f x = q then w else 0)).sum = if (∃ x ∈ l, f x = q) then w else 0 := by
  induction l with
  | nil => simp
  | cons a t ih =>
      rw [List.map_cons, List.nodup_cons] at hNd
      obtain ⟨ha, ht⟩ := hNd
      by_cases haq : f a = q
      · have hnone : ∀ x ∈ t, ¬ (f x = q) := by
          intro x hx hxq
          exact ha (by rw [haq, ← hxq]; exact List.mem_map_of_mem f hx)
        have hex : (∃ x ∈ a :: t, f x = q) := ⟨a, List.mem_cons_self a t, haq⟩
        have htz : (t.map (fun x => if f x = q then w else 0)).sum = 0 := by
          rw [ih ht, if_neg]
          rintro ⟨x, hx, hxq⟩
          exact hnone x hx hxq
        simp only [List.map_cons, List.sum_cons, if_pos haq, htz, if_pos hex, add_zero]
      · have hiff : (∃ x ∈ a :: t, f x = q) ↔ (∃ x ∈ t, f x = q) := by
          constructor
          · rintro ⟨x, hx, hxq⟩
            rcases List.mem_cons.mp hx with rfl | hx
            · exact absurd hxq haq
            · exact ⟨x, hx, hxq⟩
          · rintro ⟨x, hx, hxq⟩
            exact ⟨x, List.mem_cons_of_mem _ hx, hxq⟩
        simp only [List.map_cons, List.sum_cons, if_neg haq, ih ht, zero_add]
        rw [if_congr hiff.symm rfl rfl]

/-! ## Uniqueness lemmas for dict lookups -/

theorem find?_unique {p : α → Bool} {x : α} :
    ∀ {l : List α}, x ∈ l → p x = true → (∀ y ∈ l, p y = true → y = x) →
      l.find? p = some x := by
  intro l
  induction l with
  | nil => intro h; simp at h
  | cons a t ih =>
      intro hx hpx hu
      by_cases hpa : p a = true
      · rw [List.find?_cons_of_pos _ hpa]
        exact congrArg some (hu a (List.mem_cons_self a t) hpa)
      · rw [List.find?_cons_of_neg _ (by simpa using hpa)]
        have hx' : x ∈ t := by
          rcases List.mem_cons.mp hx with rfl | h
          · exact absurd hpx hpa
          · exact h
        exact ih hx' hpx (fun y hy hpy => hu y (List.mem_cons_of_mem _ hy) hpy)

theorem pyFind_eq_some_iff [DecidableEq α] {l : List (α × β)}
    (hNd : (l.map Prod.fst).Nodup) {k : α} {v : β} :
    pyFind l k = some v ↔ (k, v) ∈ l := by
  constructor
  · exact pyFind_mem
  · intro hm
    have huniq : ∀ y ∈ l.reverse, (fun kv => decide (kv.1 = k)) y = true → y = (k, v) := by
      intro y hy hpy
      have hy' : y ∈ l := List.mem_reverse.mp hy
      have hk : y.1 = k := by simpa using hpy
      exact List.inj_on_of_nodup_map hNd hy' hm (by simpa using hk)
    unfold pyFind
    rw [find?_unique (List.mem_reverse.mpr hm) (by simp) huniq]
    rfl

theorem filterProjSingleton [DecidableEq κ] {l : List α} {f : α → κ}
    (hNd : (l.map f).Nodup) {x : α} (hx : x ∈ l) :
    l.filter (fun y => decide (f y = f x)) = [x] := by
  induction l with
  | nil => simp at hx
  | cons a t ih =>
      rw [List.map_cons, List.nodup_cons] at hNd
      obtain ⟨ha, ht⟩ := hNd
      rcases List.mem_cons.mp hx with rfl | hx'
      · have htnil : t.filter (fun y => decide (f y = f x)) = [] := by
          rw [List.filter_eq_nil_iff]
          intro y hy hdy
          exact ha (((by simpa using hdy : f y = f x)) ▸ List.mem_map_of_mem f hy)
        rw [List.filter_cons, if_pos (by simp), htnil]
      · have hfa : ¬ (f a = f x) := fun h => ha (h ▸ List.mem_map_of_mem f hx')
        rw [List.filter_cons, if_neg (by simpa using hfa)]
        exact ih ht hx'

/-- Total inclusive cost recorded by `loops` under the short key `q` (the
value of the unique binding with that `(comp_id, loop_id)` when keys are
unique, else the sum of all such bindings). -/
def inclOf (loops : List (FKey × ℤ)) (q : LKey) : ℤ :=
  ((loops.filter (fun kv => decide (fkLKey kv.1 = q))).map Prod.snd).sum

theorem codeLookup_eq_inclOf (loops : List (FKey × ℤ))
    (hNd : (loops.map (fun kv => fkLKey kv.1)).Nodup) (q : LKey) :
    (match key_by_id loops q with
     | some ck => pyGetD loops ck 0
     | none => 0) = inclOf loops q := by
  cases hf : loops.reverse.find? (fun kv => decide (fkLKey kv.1 = q)) with
  | none =>
      have hkb : key_by_id loops q = none := by unfold key_by_id; rw [hf]; rfl
      have hall := List.find?_eq_none.mp hf
      have hnil : loops.filter (fun kv => decide (fkLKey kv.1 = q)) = [] := by
        rw [List.filter_eq_nil_iff]
        intro kv hkv hd
        have h1 := hall kv (List.mem_reverse.mpr hkv)
        have h2 : fkLKey kv.1 = q := by simpa using hd
        exact h1 (by simpa using h2)
      rw [hkb]
      simp [inclOf, hnil]
  | some kv₀ =>
      have hkb : key_by_id loops q = some kv₀.1 := by unfold key_by_id; rw [hf]; rfl
      have hm : kv₀ ∈ loops := List.mem_reverse.mp (List.mem_of_find?_eq_some hf)
      have hq : fkLKey kv₀.1 = q := by simpa using List.find?_some hf
      have huniq : ∀ y ∈ loops.reverse, (fun kv => decide (kv.1 = kv₀.1)) y = true → y = kv₀ := by
        intro y hy hpy
        have hy' : y ∈ loops := List.mem_reverse.mp hy
        have hk : y.1 = kv₀.1 := by simpa using hpy
        exact List.inj_on_of_nodup_map hNd hy' hm (by rw [hk])
      have hpf : pyFind loops kv₀.1 = some kv₀.2 := by
        unfold pyFind
        rw [find?_unique (List.mem_reverse.mpr hm) (by simp) huniq]
        rfl
      have hfil : loops.filter (fun kv => decide (fkLKey kv.1 = q)) = [kv₀] := by
        rw [← hq]
        exact filterProjSingleton hNd hm
      rw [hkb]
      simp [pyGetD, hpf, inclOf, hfil]

theorem iteIte (A B : Prop) [Decidable A] [Decidable B] (v : ℤ) :
    (if A ∧ B then v else 0) = if A then (if B then v else 0) else 0 := by
  by_cases hA : A
  · by_cases hB : B
    · simp [hA, hB]
    · simp [hA, hB]
  · simp [hA]

theorem childIdsSum (parents : List (LKey × Option ℕ)) (q : LKey) (G : ℕ → ℤ) :
    ((childIds parents q).map G).sum
      = (parents.map (fun kp => if kp.1.1 = q.1 ∧ kp.2 = some q.2 then G kp.1.2 else 0)).sum := by
  induction parents with
  | nil => simp [childIds]
  | cons kp t ih =>
      by_cases hc : (kp.1.1 = q.1 ∧ kp.2 = some q.2)
      · have hstep : childIds (kp :: t) q = kp.1.2 :: childIds t q := by
          simp [childIds, List.filterMap_cons, hc]
        rw [hstep, List.map_cons, List.sum_cons, ih, List.map_cons, List.sum_cons, if_pos hc]
      · have hstep : childIds (kp :: t) q = childIds t q := by
          simp [childIds, List.filterMap_cons, hc]
        rw [hstep, ih, List.map_cons, List.sum_cons, if_neg hc, zero_add]

theorem codeChildSum_eq_spec (loops : List (FKey × ℤ)) (parents : List (LKey × Option ℕ))
    (hNd : (loops.map (fun kv => fkLKey kv.1)).Nodup)
    (hPNd : (parents.map Prod.fst).Nodup) (k : FKey) :
    ((childIds parents (fkLKey k)).map (fun cid =>
        match key_by_id loops (k.1, cid) with
        | some ck => pyGetD loops ck 0
        | none => 0)).sum
      = specChildSum loops parents k := by
  have hPnd' : parents.Nodup := List.Nodup.of_map _ hPNd
  have h1 : ((childIds parents (fkLKey k)).map (fun cid =>
      match key_by_id loops (k.1, cid) with
      | some ck => pyGetD loops ck 0
      | none => 0))
      = ((childIds parents (fkLKey k)).map (fun cid => inclOf loops (k.1, cid))) :=
    List.map_congr_left (fun cid _ => codeLookup_eq_inclOf loops hNd (k.1, cid))
  rw [h1, childIdsSum]
  have h2 : ∀ kp : LKey × Option ℕ,
      (if kp.1.1 = (fkLKey k).1 ∧ kp.2 = some (fkLKey k).2 then inclOf loops (k.1, kp.1.2) else 0)
        = (loops.map (fun kv =>
            if (kp.1.1 = k.1 ∧ kp.2 = some k.2.2) ∧ fkLKey kv.1 = (k.1, kp.1.2)
            then kv.2 else 0)).sum := by
    intro kp
    have hincl : inclOf loops (k.1, kp.1.2)
        = (loops.map (fun kv => if fkLKey kv.1 = (k.1, kp.1.2) then kv.2 else 0)).sum := by
      unfold inclOf
      rw [sumFilterMap]
      refine congrArg _ (List.map_congr_left (fun kv _ => ?_))
      by_cases hd : fkLKey kv.1 = (k.1, kp.1.2)
      · simp [hd]
      · simp [hd]
    have hfst : (fkLKey k).1 = k.1 := rfl
    have hsnd : (fkLKey k).2 = k.2.2 := rfl
    rw [hfst, hsnd, hincl, iteSumPush]
    refine congrArg _ (List.map_congr_left (fun kv _ => ?_))
    rw [← iteIte]
  rw [List.map_congr_left (fun kp (_ : kp ∈ parents) => h2 kp), sumSumComm]
  have h4 : ∀ kv : FKey × ℤ,
      (parents.map (fun kp =>
          if (kp.1.1 = k.1 ∧ kp.2 = some k.2.2) ∧ fkLKey kv.1 = (k.1, kp.1.2)
          then kv.2 else 0)).sum
        = if kv.1.1 = k.1 ∧ parentOf parents (fkLKey kv.1) = some (some k.2.2)
          then kv.2 else 0 := by
    intro kv
    have hcond : ∀ kp : LKey × Option ℕ,
        ((kp.1.1 = k.1 ∧ kp.2 = some k.2.2) ∧ fkLKey kv.1 = (k.1, kp.1.2))
          ↔ (kv.1.1 = k.1 ∧ kp = (fkLKey kv.1, some k.2.2)) := by
      intro kp
      constructor
      · rintro ⟨⟨h11, h12⟩, h3⟩
        obtain ⟨hk1, hk2⟩ : kv.1.1 = k.1 ∧ kv.1.2.2 = kp.1.2 := by
          simpa [fkLKey, Prod.ext_iff] using h3
        refine ⟨hk1, Prod.ext ?_ h12⟩
        exact Prod.ext (by rw [h11, ← hk1]; rfl) (by rw [← hk2]; rfl)
      · rintro ⟨hk1, rfl⟩
        refine ⟨⟨by rw [← hk1]; rfl, rfl⟩, ?_⟩
        exact Prod.ext (by rw [← hk1]; rfl) rfl
    have hpt : ∀ kp ∈ parents,
        (if (kp.1.1 = k.1 ∧ kp.2 = some k.2.2) ∧ fkLKey kv.1 = (k.1, kp.1.2) then kv.2 else 0)
          = if kv.1.1 = k.1 then (if kp = (fkLKey kv.1, some k.2.2) then kv.2 else 0) else 0 := by
      intro kp _
      by_cases h : ((kp.1.1 = k.1 ∧ kp.2 = some k.2.2) ∧ fkLKey kv.1 = (k.1, kp.1.2))
      · have h' := (hcond kp).mp h
        rw [if_pos h, if_pos h'.1, if_pos h'.2]
      · rw [if_neg h]
        by_cases h1 : kv.1.1 = k.1
        · by_cases hx : kp = (fkLKey kv.1, some k.2.2)
          · exact absurd ((hcond kp).mpr ⟨h1, hx⟩) h
          · rw [if_pos h1, if_neg hx]
        · rw [if_neg h1]
    rw [List.map_congr_left hpt, ← iteSumPush,
      sumIteEqOfNodup parents hPnd' (fkLKey kv.1, some k.2.2) kv.2]
    have hiff : ((fkLKey kv.1, some k.2.2) ∈ parents)
        ↔ (parentOf parents (fkLKey kv.1) = some (some k.2.2)) := by
      constructor
      · intro hm
        exact (pyFind_eq_some_iff hPNd).mpr hm
      · intro hp
        exact pyFind_mem hp
    by_cases hA : kv.1.1 = k.1
    · by_cases hB : parentOf parents (fkLKey kv.1) = some (some k.2.2)
      · rw [if_pos hA, if_pos (hiff.mpr hB), if_pos ⟨hA, hB⟩]
      · rw [if_pos hA, if_neg (fun hc => hB (hiff.mp hc)), if_neg (fun hc => hB hc.2)]
    · rw [if_neg hA, if_neg (fun hc => hA hc.1)]
  rw [List.map_congr_left (fun kv (_ : kv ∈ loops) => h4 kv)]
  unfold specChildSum
  rw [sumFilterMap]
  refine (congrArg _ (List.map_congr_left (fun kv _ => ?_))).symm
  by_cases hc : (kv.1.1 = k.1 ∧ parentOf parents (fkLKey kv.1) = some (some k.2.2))
  · simp [hc]
  · simp [hc]

/-! ## Claim theorems: C4 -/

/-- C4: with dict-unique keys, `compute_exclusive_cycles` returns, for each
loop in iteration order, the pair of its key and
`inclusive - Σ inclusive(child) over its direct children`, clamped to zero
when negative, where the direct children of a loop are the recorded loops of
the same compilation whose recorded parent is that loop's id. -/
theorem C4_theorem (loops : List (FKey × ℤ)) (parents : List (LKey × Option ℕ))
    (hNd : (loops.map (fun kv => fkLKey kv.1)).Nodup)
    (hPNd : (parents.map Prod.fst).Nodup) :
    compute_exclusive_cycles loops parents
      = loops.map (fun kv =>
          (kv.1, if kv.2 - specChildSum loops parents kv.1 < 0 then 0
                 else kv.2 - specChildSum loops parents kv.1)) := by
  unfold compute_exclusive_cycles
  refine List.map_congr_left (fun kv _ => ?_)
  simp only [codeChildSum_eq_spec loops parents hNd hPNd]

/-- C4 witness: a three-loop nest (loop 1 inside loop 0, loop 2 inside
loop 1) with inclusive costs 100, 30, 10. -/
theorem C4_witness :
    ((([((5, "m", 0), 100), ((5, "m", 1), 30), ((5, "m", 2), 10)] : List (FKey × ℤ)).map
        (fun kv => fkLKey kv.1)).Nodup) ∧
    ((([((5, 0), none), ((5, 1), some 0), ((5, 2), some 1)] :
        List (LKey × Option ℕ)).map Prod.fst).Nodup) ∧
    compute_exclusive_cycles [((5, "m", 0), 100), ((5, "m", 1), 30), ((5, "m", 2), 10)]
        [((5, 0), none), ((5, 1), some 0), ((5, 2), some 1)]
      = ([((5, "m", 0), 100), ((5, "m", 1), 30), ((5, "m", 2), 10)] : List (FKey × ℤ)).map
          (fun kv =>
            (kv.1,
              if kv.2 - specChildSum [((5, "m", 0), 100), ((5, "m", 1), 30), ((5, "m", 2), 10)]
                  [((5, 0), none), ((5, 1), some 0), ((5, 2), some 1)] kv.1 < 0 then 0
              else kv.2 - specChildSum [((5, "m", 0), 100), ((5, "m", 1), 30), ((5, "m", 2), 10)]
                  [((5, 0), none), ((5, 1), some 0), ((5, 2), some 1)] kv.1)) :=
  ⟨by decide, by decide, C4_theorem _ _ (by decide) (by decide)⟩

/-! ## Conservation lemmas (C3) -/

theorem specChildSum_ite (loops : List (FKey × ℤ)) (parents : List (LKey × Option ℕ))
    (k : FKey) :
    specChildSum loops parents k
      = (loops.map (fun kv =>
          if kv.1.1 = k.1 ∧ parentOf parents (fkLKey kv.1) = some (some k.2.2)
          then kv.2 else 0)).sum := by
  unfold specChildSum
  rw [sumFilterMap]
  refine congrArg _ (List.map_congr_left (fun kv _ => ?_))
  by_cases hc : (kv.1.1 = k.1 ∧ parentOf parents (fkLKey kv.1) = some (some k.2.2))
  · simp [hc]
  · simp [hc]

theorem sumFilterMapMapSnd (l : List (FKey × ℤ)) (g : FKey × ℤ → FKey × ℤ)
    (p : FKey × ℤ → Bool) :
    (((l.map g).filter p).map Prod.snd).sum
      = (l.map (fun x => if p (g x) then (g x).2 else 0)).sum := by
  rw [sumFilterMap (l.map g) p Prod.snd, List.map_map]
  rfl

/-- The non-root loops of compilation `c` absorb, between them, exactly the
spec-side child sums of all loops of compilation `c`. -/
theorem childSums_eq_nonRoots (loops : List (FKey × ℤ)) (parents : List (LKey × Option ℕ))
    (c : ℕ)
    (hNd : (loops.map (fun kv => fkLKey kv.1)).Nodup)
    (hParent : ∀ kv ∈ loops, kv.1.1 = c →
        ∀ p, parentOf parents (fkLKey kv.1) = some (some p) →
          ∃ kv' ∈ loops, fkLKey kv'.1 = (c, p)) :
    (loops.map (fun kv => if kv.1.1 = c then specChildSum loops parents kv.1 else 0)).sum
      = (loops.map (fun kv =>
          if kv.1.1 = c ∧ ¬ isRootLoop parents (fkLKey kv.1) then kv.2 else 0)).sum := by
  have h1 : ∀ kv ∈ loops,
      (if kv.1.1 = c then specChildSum loops parents kv.1 else 0)
        = (loops.map (fun kv' =>
            if kv.1.1 = c ∧ (kv'.1.1 = kv.1.1 ∧
                parentOf parents (fkLKey kv'.1) = some (some kv.1.2.2))
            then kv'.2 else 0)).sum := by
    intro kv _
    rw [specChildSum_ite, iteSumPush]
    refine congrArg _ (List.map_congr_left (fun kv' _ => ?_))
    rw [← iteIte]
  rw [List.map_congr_left h1, sumSumComm]
  refine congrArg _ (List.map_congr_left (fun kv' hkv' => ?_))
  cases hr : parentOf parents (fkLKey kv'.1) with
  | none =>
      have hz : ∀ kv ∈ loops,
          (if kv.1.1 = c ∧ (kv'.1.1 = kv.1.1 ∧
              (none : Option (Option ℕ)) = some (some kv.1.2.2))
           then kv'.2 else 0) = (0 : ℤ) := by
        intro kv _
        rw [if_neg]
        rintro ⟨_, _, hpar⟩
        exact Option.noConfusion hpar
      rw [List.map_congr_left hz, sumMapZero, if_neg]
      rintro ⟨_, hnr⟩
      exact hnr (Or.inl hr)
  | some po =>
      cases po with
      | none =>
          have hz : ∀ kv ∈ loops,
              (if kv.1.1 = c ∧ (kv'.1.1 = kv.1.1 ∧
                  (some none : Option (Option ℕ)) = some (some kv.1.2.2))
               then kv'.2 else 0) = (0 : ℤ) := by
            intro kv _
            rw [if_neg]
            rintro ⟨_, _, hpar⟩
            simp at hpar
          rw [List.map_congr_left hz, sumMapZero, if_neg]
          rintro ⟨_, hnr⟩
          exact hnr (Or.inr hr)
      | some p =>
          have hcond : ∀ kv : FKey × ℤ,
              (kv.1.1 = c ∧ (kv'.1.1 = kv.1.1 ∧
                  (some (some p) : Option (Option ℕ)) = some (some kv.1.2.2)))
                ↔ (kv'.1.1 = c ∧ fkLKey kv.1 = (c, p)) := by
            intro kv
            constructor
            · rintro ⟨ha, hb, hc3⟩
              have hp2 : p = kv.1.2.2 := by simpa using hc3
              refine ⟨hb.trans ha, ?_⟩
              show (kv.1.1, kv.1.2.2) = (c, p)
              rw [ha, ← hp2]
            · rintro ⟨h1x, h2⟩
              obtain ⟨ha, hb⟩ : kv.1.1 = c ∧ kv.1.2.2 = p := by
                simpa [fkLKey, Prod.ext_iff] using h2
              exact ⟨ha, h1x.trans ha.symm, by rw [hb]⟩
          have hpt : ∀ kv ∈ loops,
              (if kv.1.1 = c ∧ (kv'.1.1 = kv.1.1 ∧
                  (some (some p) : Option (Option ℕ)) = some (some kv.1.2.2))
               then kv'.2 else 0)
                = if kv'.1.1 = c ∧ fkLKey kv.1 = (c, p) then kv'.2 else 0 := by
            intro kv _
            by_cases h : (kv.1.1 = c ∧ (kv'.1.1 = kv.1.1 ∧
                (some (some p) : Option (Option ℕ)) = some (some kv.1.2.2)))
            · rw [if_pos h, if_pos ((hcond kv).mp h)]
            · rw [if_neg h, if_neg (fun hx => h ((hcond kv).mpr hx))]
          rw [List.map_congr_left hpt,
            List.map_congr_left (fun kv (_ : kv ∈ loops) =>
              iteIte (kv'.1.1 = c) (fkLKey kv.1 = (c, p)) kv'.2),
            ← iteSumPush, sumIteProjOfNodup loops _ hNd (c, p) kv'.2]
          have hnr : ¬ isRootLoop parents (fkLKey kv'.1) := by
            simp [isRootLoop, hr]
          by_cases hc2 : kv'.1.1 = c
          · rw [if_pos hc2, if_pos (hParent kv' hkv' hc2 p hr), if_pos ⟨hc2, hnr⟩]
          · rw [if_neg hc2, if_neg (fun hx => hc2 hx.1)]

/-! ## Claim theorems: C3 -/

/-- C3: for a valid loop-parent forest (dict-unique keys; every non-root loop
of compilation `c` has its parent recorded among compilation `c`'s loops) and
inclusive costs on which no clamping occurs (every loop's inclusive cost is at
least the sum of its children's inclusive costs), the exclusive costs computed
by `compute_exclusive_cycles` for compilation `c` sum to the total inclusive
cost of compilation `c`'s root loops. -/
theorem C3_theorem (loops : List (FKey × ℤ)) (parents : List (LKey × Option ℕ)) (c : ℕ)
    (hNd : (loops.map (fun kv => fkLKey kv.1)).Nodup)
    (hPNd : (parents.map Prod.fst).Nodup)
    (hNoClamp : ∀ kv ∈ loops, specChildSum loops parents kv.1 ≤ kv.2)
    (hParent : ∀ kv ∈ loops, kv.1.1 = c →
        ∀ p, parentOf parents (fkLKey kv.1) = some (some p) →
          ∃ kv' ∈ loops, fkLKey kv'.1 = (c, p)) :
    (((compute_exclusive_cycles loops parents).filter
        (fun kv => decide (kv.1.1 = c))).map Prod.snd).sum
      = ((loops.filter (fun kv =>
            decide (kv.1.1 = c ∧ isRootLoop parents (fkLKey kv.1)))).map Prod.snd).sum := by
  rw [C4_theorem loops parents hNd hPNd, sumFilterMapMapSnd]
  simp only [decide_eq_true_eq]
  have hA : ∀ kv ∈ loops,
      (if kv.1.1 = c then (if kv.2 - specChildSum loops parents kv.1 < 0 then 0
          else kv.2 - specChildSum loops parents kv.1) else 0)
        = (if kv.1.1 = c then kv.2 else 0)
            - (if kv.1.1 = c then specChildSum loops parents kv.1 else 0) := by
    intro kv hkv
    have hnc : ¬ (kv.2 - specChildSum loops parents kv.1 < 0) :=
      not_lt.mpr (sub_nonneg.mpr (hNoClamp kv hkv))
    by_cases hc : kv.1.1 = c
    · rw [if_pos hc, if_pos hc, if_pos hc, if_neg hnc]
    · rw [if_neg hc, if_neg hc, if_neg hc, sub_zero]
  rw [List.map_congr_left hA, sumMapSub, childSums_eq_nonRoots loops parents c hNd hParent,
    sumFilterMap]
  have hB : ∀ kv ∈ loops,
      (if (decide (kv.1.1 = c ∧ isRootLoop parents (fkLKey kv.1))) = true then kv.2 else 0)
        = if kv.1.1 = c ∧ isRootLoop parents (fkLKey kv.1) then kv.2 else 0 := by
    intro kv _
    simp
  rw [List.map_congr_left hB]
  have hsplit : ∀ kv ∈ loops,
      (if kv.1.1 = c then kv.2 else 0)
        = (if kv.1.1 = c ∧ isRootLoop parents (fkLKey kv.1) then kv.2 else 0)
          + (if kv.1.1 = c ∧ ¬ isRootLoop parents (fkLKey kv.1) then kv.2 else 0) := by
    intro kv _
    by_cases hc : kv.1.1 = c
    · by_cases hro : isRootLoop parents (fkLKey kv.1)
      · rw [if_pos hc, if_pos ⟨hc, hro⟩, if_neg (fun hx => hx.2 hro), add_zero]
      · rw [if_pos hc, if_neg (fun hx => hro hx.2), if_pos ⟨hc, hro⟩, zero_add]
    · rw [if_neg hc, if_neg (fun hx => hc hx.1), if_neg (fun hx => hc hx.1), add_zero]
  rw [List.map_congr_left hsplit, sumMapAdd]
  ring

/-- C3 witness: a noise-free three-loop nest in compilation 5 (loop 2 inside
loop 1 inside root loop 0, inclusive costs 100/30/10): the exclusive costs
(70/20/10) sum to the root's inclusive cost 100. -/
theorem C3_witness :
    ((([((5, "m", 0), 100), ((5, "m", 1), 30), ((5, "m", 2), 10)] : List (FKey × ℤ)).map
        (fun kv => fkLKey kv.1)).Nodup) ∧
    (((((5, 0), none) :: (((5, 1), some 0) : LKey × Option ℕ) ::
        [((5, 2), some 1)]).map Prod.fst).Nodup) ∧
    ((((compute_exclusive_cycles [((5, "m", 0), 100), ((5, "m", 1), 30), ((5, "m", 2), 10)]
          [((5, 0), none), ((5, 1), some 0), ((5, 2), some 1)]).filter
        (fun kv => decide (kv.1.1 = 5))).map Prod.snd).sum
      = ((([((5, "m", 0), 100), ((5, "m", 1), 30), ((5, "m", 2), 10)] :
            List (FKey × ℤ)).filter (fun kv =>
              decide (kv.1.1 = 5 ∧ isRootLoop [((5, 0), none), ((5, 1), some 0), ((5, 2), some 1)]
                (fkLKey kv.1)))).map Prod.snd).sum) := by
  refine ⟨by decide, by decide, ?_⟩
  apply C3_theorem
  · decide
  · decide
  · decide
  · intro kv hkv hc p hp
    fin_cases hkv
    · rw [show parentOf [((5, 0), none), ((5, 1), some 0), ((5, 2), some 1)]
          (fkLKey ((5, "m", 0) : FKey)) = some none from by decide] at hp
      simp at hp
    · rw [show parentOf [((5, 0), none), ((5, 1), some 0), ((5, 2), some 1)]
          (fkLKey ((5, "m", 1) : FKey)) = some (some 0) from by decide] at hp
      have hp0 : p = 0 := by simpa using hp.symm
      subst hp0
      exact ⟨((5, "m", 0), 100), by decide, by decide⟩
    · rw [show parentOf [((5, 0), none), ((5, 1), some 0), ((5, 2), some 1)]
          (fkLKey ((5, "m", 2) : FKey)) = some (some 1) from by decide] at hp
      have hp1 : p = 1 := by simpa using hp.symm
      subst hp1
      exact ⟨((5, "m", 1), 30), by decide, by decide⟩

/-! ## Significance selection
(src/LoopProfiling/FourthTest_SimRuns_WithCallCount/bubo_async_compare.py,
`analyze_benchmark` lines 517-580; configuration constants `MAX_LOOPS = 40`
and `COVERAGE_THRESHOLD = 99.0` at lines 313-314) -/

/-- `MAX_LOOPS` (bubo_async_compare.py line 313). -/
def MAX_LOOPS : ℕ := 40

/-- `COVERAGE_THRESHOLD` (bubo_async_compare.py line 314), percent of total
baseline Bubo cycles. -/
def COVERAGE_THRESHOLD : ℚ := 99

/-- The row-selection loop of `analyze_benchmark` (bubo_async_compare.py
lines 517-580), parameterised by the two configuration constants: iterate the
ranked keys with index `i`; stop *before* appending once `i >= maxLoops`;
otherwise append the row, add the row's baseline share
(`b_cycles_base / total * 100`) to the running coverage, and stop *after*
appending once coverage reaches `threshold`.  A row is represented by its
`(comp_id, loop_id)` key paired with its baseline exclusive cycles — the only
row fields the selection logic reads. -/
def selectRowsAux (maxLoops : ℕ) (threshold total : ℚ) :
    List ((ℕ × ℕ) × ℚ) → ℕ → ℚ → List ((ℕ × ℕ) × ℚ)
  | [], _, _ => []
  | kb :: rest, i, coverage =>
      if maxLoops ≤ i then []
      else
        if threshold ≤ coverage + kb.2 / total * 100 then [kb]
        else kb :: selectRowsAux maxLoops threshold total rest (i + 1)
              (coverage + kb.2 / total * 100)

/-- Entry point of the selection loop: index `0`, coverage `0.0`. -/
def select_significant (maxLoops : ℕ) (threshold total : ℚ)
    (keys : List ((ℕ × ℕ) × ℚ)) : List ((ℕ × ℕ) × ℚ) :=
  selectRowsAux maxLoops threshold total keys 0 0

/-- Cumulative baseline share (percent of `total`) of a list of rows. -/
def cumShare (total : ℚ) (l : List ((ℕ × ℕ) × ℚ)) : ℚ :=
  (l.map (fun kb => kb.2 / total * 100)).sum

/-- Number of rows the selection loop keeps from `l` when `cap` more rows may
be appended and `t` more coverage is needed. -/
def selectCount (total : ℚ) : List ((ℕ × ℕ) × ℚ) → ℕ → ℚ → ℕ
  | [], cap, _ => cap
  | kb :: rest, cap, t =>
      if cap = 0 then 0
      else if t ≤ kb.2 / total * 100 then 1
      else selectCount total rest (cap - 1) (t - kb.2 / total * 100) + 1

theorem selectRowsAux_eq_take (maxLoops : ℕ) (threshold total : ℚ) :
    ∀ (l : List ((ℕ × ℕ) × ℚ)) (i : ℕ) (cov : ℚ),
      selectRowsAux maxLoops threshold total l i cov
        = l.take (selectCount total l (maxLoops - i) (threshold - cov)) := by
  intro l
  induction l with
  | nil => intro i cov; simp [selectRowsAux]
  | cons kb rest ih =>
      intro i cov
      by_cases hcap : maxLoops ≤ i
      · have h0 : maxLoops - i = 0 := Nat.sub_eq_zero_of_le hcap
        simp [selectRowsAux, selectCount, hcap, h0]
      · have hne : ¬ (maxLoops - i = 0) := by omega
        by_cases hth : threshold ≤ cov + kb.2 / total * 100
        · have hth' : threshold - cov ≤ kb.2 / total * 100 := by linarith
          simp [selectRowsAux, selectCount, hcap, hne, hth, hth']
        · have hth' : ¬ (threshold - cov ≤ kb.2 / total * 100) := fun h => hth (by linarith)
          have e1 : maxLoops - (i + 1) = (maxLoops - i) - 1 := by omega
          have e2 : threshold - (cov + kb.2 / total * 100)
              = (threshold - cov) - kb.2 / total * 100 := by ring
          simp only [selectRowsAux, if_neg hcap, if_neg hth, selectCount, if_neg hne,
            if_neg hth', List.take_succ_cons, ih (i + 1) (cov + kb.2 / total * 100), e1, e2]

theorem selectCount_spec (total : ℚ) :
    ∀ (l : List ((ℕ × ℕ) × ℚ)) (cap : ℕ) (t : ℚ), 0 < t →
      (selectCount total l cap t = cap
          ∨ t ≤ cumShare total (l.take (selectCount total l cap t))) ∧
        ∀ m < selectCount total l cap t, m ≠ cap ∧ cumShare total (l.take m) < t := by
  intro l
  induction l with
  | nil =>
      intro cap t ht
      refine ⟨Or.inl rfl, ?_⟩
      intro m hm
      refine ⟨Nat.ne_of_lt hm, ?_⟩
      simpa [cumShare] using ht
  | cons kb rest ih =>
      intro cap t ht
      by_cases hcap : cap = 0
      · subst hcap
        refine ⟨Or.inl (by simp [selectCount]), ?_⟩
        intro m hm
        simp [selectCount] at hm
      · by_cases hth : t ≤ kb.2 / total * 100
        · have hN : selectCount total (kb :: rest) cap t = 1 := by
            simp [selectCount, hcap, hth]
          refine ⟨Or.inr ?_, ?_⟩
          · rw [hN]
            simpa [cumShare] using hth
          · intro m hm
            rw [hN] at hm
            interval_cases m
            refine ⟨fun h => hcap h.symm, ?_⟩
            simpa [cumShare] using ht
        · have ht' : 0 < t - kb.2 / total * 100 := by
            rcases lt_or_le (kb.2 / total * 100) t with h | h
            · linarith
            · exact absurd h hth
          obtain ⟨htr, hmin⟩ := ih (cap - 1) (t - kb.2 / total * 100) ht'
          have hN : selectCount total (kb :: rest) cap t
              = selectCount total rest (cap - 1) (t - kb.2 / total * 100) + 1 := by
            simp [selectCount, hcap, hth]
          constructor
          · rcases htr with h | h
            · exact Or.inl (by rw [hN, h]; omega)
            · refine Or.inr ?_
              rw [hN, List.take_succ_cons]
              have : cumShare total (kb :: rest.take
                  (selectCount total rest (cap - 1) (t - kb.2 / total * 100)))
                  = kb.2 / total * 100 + cumShare total (rest.take
                      (selectCount total rest (cap - 1) (t - kb.2 / total * 100))) := by
                simp [cumShare]
              rw [this]
              linarith
          · intro m hm
            rw [hN] at hm
            cases m with
            | zero =>
                refine ⟨fun h => hcap h.symm, ?_⟩
                simpa [cumShare] using ht
            | succ m' =>
                have hm' : m' < selectCount total rest (cap - 1) (t - kb.2 / total * 100) := by
                  omega
                obtain ⟨hne', hlt'⟩ := hmin m' hm'
                refine ⟨by omega, ?_⟩
                have : cumShare total ((kb :: rest).take (m' + 1))
                    = kb.2 / total * 100 + cumShare total (rest.take m') := by
                  simp [cumShare]
                rw [this]
                linarith

/-! ## Claim theorems: C6 -/

/-- C6: for every ranked row list, positive coverage threshold and maximum
row count, the selection loop returns exactly the shortest initial segment at
which either the cumulative baseline share first reaches the threshold or the
maximum row count is reached, whichever triggers first. -/
theorem C6_theorem (keys : List ((ℕ × ℕ) × ℚ)) (total threshold : ℚ) (maxLoops : ℕ)
    (ht : 0 < threshold) :
    ∃ N, select_significant maxLoops threshold total keys = keys.take N ∧
      (N = maxLoops ∨ threshold ≤ cumShare total (keys.take N)) ∧
      ∀ m < N, m ≠ maxLoops ∧ cumShare total (keys.take m) < threshold := by
  refine ⟨selectCount total keys maxLoops threshold, ?_, ?_, ?_⟩
  · have h := selectRowsAux_eq_take maxLoops threshold total keys 0 0
    simpa [select_significant] using h
  · exact (selectCount_spec total keys maxLoops threshold ht).1
  · exact (selectCount_spec total keys maxLoops threshold ht).2

/-- C6 witness: baseline values 50/30/15/5 out of a total of 100 (shares 50%,
30%, 15%, 5%), coverage threshold 90 and maximum row count 10 select exactly
the first three rows (cumulative 95 ≥ 90 only after row 3). -/
theorem C6_witness :
    0 < (90 : ℚ) ∧
    (∃ N, select_significant 10 90 100
          [((0, 0), (50 : ℚ)), ((0, 1), 30), ((0, 2), 15), ((0, 3), 5)]
        = ([((0, 0), (50 : ℚ)), ((0, 1), 30), ((0, 2), 15), ((0, 3), 5)]).take N ∧
      (N = 10 ∨ (90 : ℚ) ≤ cumShare 100
          (([((0, 0), (50 : ℚ)), ((0, 1), 30), ((0, 2), 15), ((0, 3), 5)]).take N)) ∧
      ∀ m < N, m ≠ 10 ∧ cumShare 100
          (([((0, 0), (50 : ℚ)), ((0, 1), 30), ((0, 2), 15), ((0, 3), 5)]).take m) < 90) ∧
    select_significant 10 90 100
        [((0, 0), (50 : ℚ)), ((0, 1), 30), ((0, 2), 15), ((0, 3), 5)]
      = [((0, 0), (50 : ℚ)), ((0, 1), 30), ((0, 2), 15)] :=
  ⟨by norm_num,
    C6_theorem [((0, 0), (50 : ℚ)), ((0, 1), 30), ((0, 2), 15), ((0, 3), 5)] 100 90 10
      (by norm_num),
    by norm_num [select_significant, selectRowsAux]⟩

/-! ## Method-name normalisation and comp lookup
(src/LoopProfiling/CustomMadeLoopTest/Data/VTuneData/median_per_loop.py) -/

/-- Python `str.strip()`: drop leading and trailing whitespace.  Strings are
modelled as lists of characters. -/
def pyStrip (s : List Char) : List Char :=
  ((s.dropWhile Char.isWhitespace).reverse.dropWhile Char.isWhitespace).reverse

/-- Python `s.replace("::", ".")`: replace every non-overlapping occurrence
of two consecutive colons with one dot, scanning left to right. -/
def replaceColons : List Char → List Char
  | [] => []
  | [c] => [c]
  | c₁ :: c₂ :: rest =>
      if c₁ = ':' ∧ c₂ = ':' then '.' :: replaceColons rest
      else c₁ :: replaceColons (c₂ :: rest)

/-- Python `s.replace(".", "::")`: replace every dot with two colons. -/
def replaceDots : List Char → List Char
  | [] => []
  | c :: rest => if c = '.' then ':' :: ':' :: replaceDots rest else c :: replaceDots rest

/-- `normalise_method_name` (median_per_loop.py lines 53-54):
`s.strip().replace("::", ".")`. -/
def normalise_method_name (s : List Char) : List Char :=
  replaceColons (pyStrip s)

/-- `ENABLE_METHOD_FALLBACK_MATCH` (median_per_loop.py line 25). -/
def ENABLE_METHOD_FALLBACK_MATCH : Bool := true

/-- `find_comp_for_method_block` (median_per_loop.py lines 147-167): look the
normalised method name up in `method_to_comps` and return the newest (last)
compilation id whose `(comp_id, method, block_id)` key is in `node_map`;
when none matches, swap the separator convention of the name
(`.` to `::` when a dot is present, else `::` to `.`), re-normalise, and
retry; `node_map` is modelled by its key set (the only part this function
reads). -/
def find_comp_for_method_block (mn : List Char) (blk : ℕ)
    (mtc : List (List Char × List ℕ)) (nm : List (ℕ × List Char × ℕ)) : Option ℕ :=
  let comps := (pyFind mtc mn).getD []
  match comps.reverse.find? (fun cid => decide ((cid, mn, blk) ∈ nm)) with
  | some cid => some cid
  | none =>
      if ENABLE_METHOD_FALLBACK_MATCH = false then none
      else
        let alt := if '.' ∈ mn then replaceDots mn else replaceColons mn
        let altNorm := normalise_method_name alt
        let comps2 := (pyFind mtc altNorm).getD []
        comps2.reverse.find? (fun cid => decide ((cid, altNorm, blk) ∈ nm))

/-! ## Normalisation lemmas -/

theorem dropWhile_eq_self_of_false {p : Char → Bool} {s : List Char}
    (h : ∀ c ∈ s, p c = false) : s.dropWhile p = s := by
  cases s with
  | nil => rfl
  | cons c rest =>
      rw [List.dropWhile_cons, if_neg]
      simp [h c (List.mem_cons_self c rest)]

theorem pyStrip_eq_self {s : List Char} (h : ∀ c ∈ s, c.isWhitespace = false) :
    pyStrip s = s := by
  unfold pyStrip
  rw [dropWhile_eq_self_of_false h,
    dropWhile_eq_self_of_false (fun c hc => h c (List.mem_reverse.mp hc)),
    List.reverse_reverse]

theorem replaceColons_no_colon : ∀ {s : List Char}, (∀ c ∈ s, c ≠ ':') →
    replaceColons s = s
  | [], _ => rfl
  | [c], _ => rfl
  | c₁ :: c₂ :: rest, h => by
      have h1 : c₁ ≠ ':' := h c₁ (by simp)
      simp only [replaceColons]
      rw [if_neg (fun hx => h1 hx.1)]
      congr 1
      exact replaceColons_no_colon (fun c hc => h c (List.mem_cons_of_mem _ hc))

theorem replaceColons_append : ∀ {a : List Char} (t : List Char),
    (∀ c ∈ a, c ≠ ':') → replaceColons (a ++ t) = a ++ replaceColons t
  | [], t, _ => by simp
  | c :: a', t, h => by
      have h1 : c ≠ ':' := h c (by simp)
      cases hat : a' ++ t with
      | nil =>
          obtain ⟨rfl, rfl⟩ := List.append_eq_nil.mp hat
          rfl
      | cons d r =>
          have hstep : replaceColons (c :: d :: r) = c :: replaceColons (d :: r) := by
            simp only [replaceColons]
            rw [if_neg (fun hx => h1 hx.1)]
          calc replaceColons (c :: (a' ++ t)) = replaceColons (c :: d :: r) := by rw [hat]
            _ = c :: replaceColons (d :: r) := hstep
            _ = c :: replaceColons (a' ++ t) := by rw [← hat]
            _ = c :: (a' ++ replaceColons t) := by
                rw [replaceColons_append t (fun x hx => h x (List.mem_cons_of_mem _ hx))]
            _ = (c :: a') ++ replaceColons t := rfl

theorem replaceColons_colon_colon (b : List Char) (hb : ∀ c ∈ b, c ≠ ':') :
    replaceColons (':' :: ':' :: b) = '.' :: b := by
  simp only [replaceColons]
  rw [if_pos (by simp), replaceColons_no_colon hb]

theorem replaceColons_dot (b : List Char) (hb : ∀ c ∈ b, c ≠ ':') :
    replaceColons ('.' :: b) = '.' :: b := by
  cases b with
  | nil => rfl
  | cons d r =>
      simp only [replaceColons]
      rw [if_neg (fun hx => absurd hx.1 (by decide)), replaceColons_no_colon hb]

/-- Both separator conventions of a well-formed `Owner::member` /
`Owner.member` name normalise to the same canonical dot-separated key. -/
theorem normalise_sep_equiv (a b : List Char)
    (ha : ∀ c ∈ a, c.isWhitespace = false ∧ c ≠ ':')
    (hb : ∀ c ∈ b, c.isWhitespace = false ∧ c ≠ ':') :
    normalise_method_name (a ++ ':' :: ':' :: b) = a ++ '.' :: b ∧
    normalise_method_name (a ++ '.' :: b) = a ++ '.' :: b := by
  have hws1 : ∀ c ∈ a ++ ':' :: ':' :: b, c.isWhitespace = false := by
    intro c hc
    rcases List.mem_append.mp hc with hc | hc
    · exact (ha c hc).1
    · rcases List.mem_cons.mp hc with rfl | hc
      · decide
      · rcases List.mem_cons.mp hc with rfl | hc
        · decide
        · exact (hb c hc).1
  have hws2 : ∀ c ∈ a ++ '.' :: b, c.isWhitespace = false := by
    intro c hc
    rcases List.mem_append.mp hc with hc | hc
    · exact (ha c hc).1
    · rcases List.mem_cons.mp hc with rfl | hc
      · decide
      · exact (hb c hc).1
  have hanc : ∀ c ∈ a, c ≠ ':' := fun c hc => (ha c hc).2
  have hbnc : ∀ c ∈ b, c ≠ ':' := fun c hc => (hb c hc).2
  constructor
  · unfold normalise_method_name
    rw [pyStrip_eq_self hws1, replaceColons_append _ hanc, replaceColons_colon_colon b hbnc]
  · unfold normalise_method_name
    rw [pyStrip_eq_self hws2, replaceColons_append _ hanc, replaceColons_dot b hbnc]

/-! ## Claim theorems: C8 -/

/-- C8: for every method name `Owner::member` / `Owner.member` whose owner
and member parts contain no colon and no whitespace, the two separator
conventions normalise to the same canonical (dot-separated) map key, so a
method recorded under one convention is found by
`find_comp_for_method_block` — for any comp table and node map — exactly when
it is found under the other. -/
theorem C8_theorem (a b : List Char) (blk : ℕ)
    (mtc : List (List Char × List ℕ)) (nm : List (ℕ × List Char × ℕ))
    (ha : ∀ c ∈ a, c.isWhitespace = false ∧ c ≠ ':')
    (hb : ∀ c ∈ b, c.isWhitespace = false ∧ c ≠ ':') :
    normalise_method_name (a ++ ':' :: ':' :: b) = normalise_method_name (a ++ '.' :: b) ∧
    find_comp_for_method_block (normalise_method_name (a ++ ':' :: ':' :: b)) blk mtc nm
      = find_comp_for_method_block (normalise_method_name (a ++ '.' :: b)) blk mtc nm := by
  obtain ⟨h1, h2⟩ := normalise_sep_equiv a b ha hb
  exact ⟨h1.trans h2.symm, by rw [h1.trans h2.symm]⟩

/-- C8 witness: `Owner::member` and `Owner.member` agree under a node map
that records the method under the canonical dot-separated key. -/
theorem C8_witness :
    (∀ c ∈ ['O', 'w', 'n', 'e', 'r'], c.isWhitespace = false ∧ c ≠ ':') ∧
    (∀ c ∈ ['m', 'e', 'm'], c.isWhitespace = false ∧ c ≠ ':') ∧
    (normalise_method_name (['O', 'w', 'n', 'e', 'r'] ++ ':' :: ':' :: ['m', 'e', 'm'])
        = normalise_method_name (['O', 'w', 'n', 'e', 'r'] ++ '.' :: ['m', 'e', 'm']) ∧
      find_comp_for_method_block
          (normalise_method_name (['O', 'w', 'n', 'e', 'r'] ++ ':' :: ':' :: ['m', 'e', 'm'])) 7
          [(['O', 'w', 'n', 'e', 'r', '.', 'm', 'e', 'm'], [3])]
          [(3, ['O', 'w', 'n', 'e', 'r', '.', 'm', 'e', 'm'], 7)]
        = find_comp_for_method_block
            (normalise_method_name (['O', 'w', 'n', 'e', 'r'] ++ '.' :: ['m', 'e', 'm'])) 7
            [(['O', 'w', 'n', 'e', 'r', '.', 'm', 'e', 'm'], [3])]
            [(3, ['O', 'w', 'n', 'e', 'r', '.', 'm', 'e', 'm'], 7)]) :=
  ⟨by decide, by decide,
    C8_theorem ['O', 'w', 'n', 'e', 'r'] ['m', 'e', 'm'] 7
      [(['O', 'w', 'n', 'e', 'r', '.', 'm', 'e', 'm'], [3])]
      [(3, ['O', 'w', 'n', 'e', 'r', '.', 'm', 'e', 'm'], 7)]
      (by decide) (by decide)⟩

/-! ## Median
(src/LoopProfiling/CustomMadeLoopTest/Data/VTuneData/median_per_method.py) -/

/-- The `median` helper (median_per_method.py lines 95-96):
`statistics.median(xs) if xs else 0.0`.  Python's `statistics.median` sorts
the data ascending and returns the middle element for an odd count, or the
average of the two middle elements for an even count; the sort is modelled by
`List.insertionSort`, which produces the same (unique) sorted arrangement. -/
def pymedian (xs : List ℚ) : ℚ :=
  if xs = [] then 0
  else
    let s := List.insertionSort (· ≤ ·) xs
    let n := xs.length
    if n % 2 = 1 then s.getD (n / 2) 0
    else (s.getD (n / 2 - 1) 0 + s.getD (n / 2) 0) / 2

/-! ## Claim theorems: C9 -/

/-- C9: for every non-empty value list, `pymedian` returns the middle element
of any full ascending sort of the values for an odd count, and the average of
the two middle elements for an even count. -/
theorem C9_theorem (xs s : List ℚ) (hne : xs ≠ []) (hperm : s.Perm xs)
    (hsort : s.Sorted (· ≤ ·)) :
    pymedian xs = if xs.length % 2 = 1 then s.getD (xs.length / 2) 0
      else (s.getD (xs.length / 2 - 1) 0 + s.getD (xs.length / 2) 0) / 2 := by
  have hs : s = List.insertionSort (· ≤ ·) xs :=
    List.eq_of_perm_of_sorted
      (hperm.trans (List.perm_insertionSort _ xs).symm) hsort
      (List.sorted_insertionSort _ xs)
  subst hs
  simp [pymedian, hne]

/-- C9 witness: the median of `[10, 20]` is `15` (average of the two middle
values) and the median of `[10, 20, 30]` is `20` (middle value). -/
theorem C9_witness :
    ([10, 20] : List ℚ) ≠ [] ∧ ([10, 20, 30] : List ℚ) ≠ [] ∧
    pymedian [10, 20] = 15 ∧ pymedian [10, 20, 30] = 20 := by
  refine ⟨by simp, by simp, ?_, ?_⟩
  · have h := C9_theorem [10, 20] [10, 20] (by simp) (List.Perm.refl _)
      (by norm_num [List.sorted_cons])
    rw [h]
    norm_num
  · have h := C9_theorem [10, 20, 30] [10, 20, 30] (by simp) (List.Perm.refl _)
      (by norm_num [List.sorted_cons])
    rw [h]
    norm_num
